import Mathlib

/-!
Shallow embedding of the Better-PITR merge coordinator (src/pitr/pitr.go).

The package under verification is the `pitr` package: `Process` orchestrates
file search, file selection by time window, merge construction, history-DDL
execution, Map and Reduce; `ExecuteHistoryDDLs` / `LoadBaseSchema` /
`loadHistoryDDLJobs` handle schema history; `isAcceptableBinlog` is the
per-record window predicate.

Collaborators that live outside the given file (`searchFiles`, `filterFiles`,
`getFirstBinlogCommitTSAndFileSize`, `NewMerge`, `merge.Map`, `merge.Reduce`,
`merge.Close`, `ddlHandle`, the TiKV store) are modelled as oracle parameters:
every theorem quantifies over their behaviour, except where a definition is
explicitly marked as modelled from the specification.

Go's `int64` values are modelled as `Int` (only compared, never overflowed);
Go's `uint64` values as `Nat`; the `int64(u)` conversion of a `uint64` is the
explicit two's-complement reinterpretation `int64OfUint64`.

Executions are modelled as a result paired with a trace of events (`Ev`), so
that ordering and cardinality claims (Map before Reduce, Close exactly once,
history DDLs executed twice) are statements about the trace.
-/

namespace PITR

/-- Errors that can flow through the pipeline.  `annotated` models
`errors.Annotate(err, msg)`; `errors.Trace` adds no message and is modelled
as the identity.  `indexOutOfRange` models the Go runtime panic that
`files[0]` would raise on an empty slice. -/
inductive Err where
  | searchFilesErr
  | noInputFiles
  | otherFilterErr
  | firstBinlogErr
  | newMergeErr
  | readFileErr
  | ddlApplyErr (ddl : String)
  | createTiStoreErr
  | getSnapshotMetaErr
  | getAllJobsErr
  | execHistoryJobsErr
  | mapErr
  | reduceErr
  | indexOutOfRange
  | annotated (msg : String) (e : Err)
deriving Repr, DecidableEq

/-- Carries the schema version and finished timestamp of a DDL job
(`model.Job.BinlogInfo`).  `SchemaVersion` is an `int64`; `FinishedTS` is
a `uint64`, modelled as `Nat`. -/
structure BinlogInfo where
  SchemaVersion : Int
  FinishedTS : Nat
deriving Repr, DecidableEq

/-- A history DDL job (`model.Job`), restricted to the fields the pitr
package reads. -/
structure Job where
  BinlogInfo : BinlogInfo
deriving Repr, DecidableEq

/-- Observable events of one run. -/
inductive Ev where
  | execHistoryEv (beginTS : Int)
  | mapEv
  | reduceEv
  | closeEv (reserveTempDir : Bool)
  | execDDLEv (ddl : String)
  | loadHistoryJobsEv
  | executeHistoryJobsEv (jobs : List Job)
deriving Repr, DecidableEq

/-- A result together with the trace of events the computation produced. -/
abbrev Res (α : Type) := Except Err α × List Ev

/-- A binlog record (`pb.Binlog`), restricted to the field the pitr package
reads.  `CommitTs` is an `int64`. -/
structure Binlog where
  CommitTs : Int
deriving Repr, DecidableEq

/-- Embeds `isAcceptableBinlog` (pitr.go:129-131):
`binlog.CommitTs >= startTs && (endTs == 0 || binlog.CommitTs <= endTs)`. -/
def isAcceptableBinlog (binlog : Binlog) (startTs endTs : Int) : Bool :=
  binlog.CommitTs ≥ startTs && (endTs == 0 || binlog.CommitTs ≤ endTs)

/-- C1: `isAcceptableBinlog` accepts a record iff its commit timestamp is at
least `startTs` and, whenever `endTs` is nonzero, at most `endTs`; an `endTs`
of 0 imposes no upper bound. -/
theorem isAcceptableBinlog_iff (binlog : Binlog) (startTs endTs : Int) :
    isAcceptableBinlog binlog startTs endTs = true ↔
      startTs ≤ binlog.CommitTs ∧ (endTs ≠ 0 → binlog.CommitTs ≤ endTs) := by
  simp only [isAcceptableBinlog, Bool.and_eq_true, Bool.or_eq_true, decide_eq_true_eq,
    beq_iff_eq, ge_iff_le]
  constructor
  · rintro ⟨h1, h2 | h2⟩
    · exact ⟨h1, fun h => absurd h2 h⟩
    · exact ⟨h1, fun _ => h2⟩
  · rintro ⟨h1, h2⟩
    refine ⟨h1, ?_⟩
    by_cases h : endTs = 0
    · exact Or.inl h
    · exact Or.inr (h2 h)

/-- Go's `int64(u)` conversion of a `uint64` value: two's-complement
reinterpretation.  Values below `2^63` are unchanged; values at or above
`2^63` wrap to negative. -/
def int64OfUint64 (n : Nat) : Int :=
  if n % 2 ^ 64 < 2 ^ 63 then ((n % 2 ^ 64 : Nat) : Int)
  else ((n % 2 ^ 64 : Nat) : Int) - 2 ^ 64

/-- The comparison `sort.Slice` uses at pitr.go:158-160: order jobs by
`BinlogInfo.SchemaVersion`. -/
def jobLE (a b : Job) : Prop :=
  a.BinlogInfo.SchemaVersion ≤ b.BinlogInfo.SchemaVersion

instance : DecidableRel jobLE := fun a b =>
  inferInstanceAs (Decidable (a.BinlogInfo.SchemaVersion ≤ b.BinlogInfo.SchemaVersion))

instance : IsTotal Job jobLE :=
  ⟨fun a b => Int.le_total a.BinlogInfo.SchemaVersion b.BinlogInfo.SchemaVersion⟩

instance : IsTrans Job jobLE :=
  ⟨fun _ _ _ hab hbc => le_trans hab hbc⟩

/-- Oracle for the TiKV-backed steps of `loadHistoryDDLJobs`, which live
outside the given file: `createTiStore`, `getSnapshotMeta`, and
`snapMeta.GetAllHistoryDDLJobs` (which yields the raw job list, sorted by
job id in Go, arbitrary here). -/
structure TiStoreOracle where
  createTiStore : Except Err Unit
  getSnapshotMeta : Except Err Unit
  getAllHistoryDDLJobs : Except Err (List Job)

/-- Embeds `loadHistoryDDLJobs` (pitr.go:133-173).  If `PDURLs` is empty the
function returns an empty list and no error.  Otherwise it obtains all
history jobs from the snapshot, sorts them by schema version, and keeps
exactly the jobs with `int64(job.BinlogInfo.FinishedTS) < beginTS`. -/
def loadHistoryDDLJobs (pdURLs : String) (oracle : TiStoreOracle) (beginTS : Int) :
    Except Err (List Job) :=
  if pdURLs.length == 0 then
    Except.ok []
  else
    match oracle.createTiStore with
    | Except.error e => Except.error e
    | Except.ok _ =>
      match oracle.getSnapshotMeta with
      | Except.error e => Except.error e
      | Except.ok _ =>
        match oracle.getAllHistoryDDLJobs with
        | Except.error e => Except.error e
        | Except.ok allJobs =>
          Except.ok ((List.insertionSort jobLE allJobs).filter
            (fun job => int64OfUint64 job.BinlogInfo.FinishedTS < beginTS))

theorem int64OfUint64_of_lt {n : Nat} (h : n < 2 ^ 63) : int64OfUint64 n = (n : Int) := by
  unfold int64OfUint64
  have h64 : n < 2 ^ 64 := lt_trans h (by norm_num)
  rw [Nat.mod_eq_of_lt h64, if_pos h]

theorem int64OfUint64_le (n : Nat) : int64OfUint64 n ≤ (n : Int) := by
  unfold int64OfUint64
  have hm : ((n % 2 ^ 64 : Nat) : Int) ≤ (n : Int) := Int.ofNat_le.2 (Nat.mod_le _ _)
  by_cases h : n % 2 ^ 64 < 2 ^ 63
  · rw [if_pos h]; exact hm
  · rw [if_neg h]; omega

/-- Splits the successful run of `loadHistoryDDLJobs` on a nonempty `PDURLs`
into its oracle steps and the final sorted-and-filtered list. -/
theorem loadHistoryDDLJobs_ok_elim (pdURLs : String) (oracle : TiStoreOracle)
    (beginTS : Int) (jobs : List Job)
    (hpd : pdURLs.length ≠ 0)
    (hok : loadHistoryDDLJobs pdURLs oracle beginTS = Except.ok jobs) :
    ∃ allJobs, oracle.getAllHistoryDDLJobs = Except.ok allJobs ∧
      jobs = (List.insertionSort jobLE allJobs).filter
        (fun job => int64OfUint64 job.BinlogInfo.FinishedTS < beginTS) := by
  rcases h1 : oracle.createTiStore with e | u1 <;>
    rcases h2 : oracle.getSnapshotMeta with e2 | u2 <;>
    rcases h3 : oracle.getAllHistoryDDLJobs with e3 | allJobs <;>
    simp only [loadHistoryDDLJobs, h1, h2, h3] at hok <;>
    rw [if_neg (by simpa using hpd)] at hok <;>
    try exact Except.noConfusion hok
  exact ⟨allJobs, rfl, (Except.ok.inj hok).symm⟩

/-- C3 (amended): on a successful run with a nonempty `PDURLs`, every
returned job satisfies `int64(FinishedTS) < beginTS`; hence every returned
job whose `FinishedTS` fits in `int64` (is below `2^63`) has
`FinishedTS < beginTS`; and conversely every job from the history source
with `FinishedTS < beginTS` is in the returned list. -/
theorem loadHistoryDDLJobs_window (pdURLs : String) (oracle : TiStoreOracle)
    (beginTS : Int) (allJobs jobs : List Job)
    (hpd : pdURLs.length ≠ 0)
    (hall : oracle.getAllHistoryDDLJobs = Except.ok allJobs)
    (hok : loadHistoryDDLJobs pdURLs oracle beginTS = Except.ok jobs) :
    (∀ j ∈ jobs, int64OfUint64 j.BinlogInfo.FinishedTS < beginTS) ∧
    (∀ j ∈ jobs, j.BinlogInfo.FinishedTS < 2 ^ 63 →
      (j.BinlogInfo.FinishedTS : Int) < beginTS) ∧
    (∀ j ∈ allJobs, (j.BinlogInfo.FinishedTS : Int) < beginTS → j ∈ jobs) := by
  obtain ⟨allJobs', hall', hjobs⟩ := loadHistoryDDLJobs_ok_elim pdURLs oracle beginTS jobs hpd hok
  rw [hall] at hall'
  obtain rfl : allJobs = allJobs' := by injection hall'
  subst hjobs
  refine ⟨?_, ?_, ?_⟩
  · intro j hj
    have := (List.mem_filter.1 hj).2
    simpa using this
  · intro j hj hfit
    have := (List.mem_filter.1 hj).2
    rw [int64OfUint64_of_lt hfit] at this
    simpa using this
  · intro j hj hlt
    refine List.mem_filter.2 ⟨(List.mem_insertionSort jobLE).2 hj, ?_⟩
    have := lt_of_le_of_lt (int64OfUint64_le j.BinlogInfo.FinishedTS) hlt
    simpa using this

theorem loadHistoryDDLJobs_window_witness :
    ("pd".length ≠ 0) ∧
    ((∀ j ∈ [(⟨⟨1, 3⟩⟩ : Job)], int64OfUint64 j.BinlogInfo.FinishedTS < 5) ∧
     (∀ j ∈ [(⟨⟨1, 3⟩⟩ : Job)], j.BinlogInfo.FinishedTS < 2 ^ 63 →
       (j.BinlogInfo.FinishedTS : Int) < 5) ∧
     (∀ j ∈ [(⟨⟨1, 3⟩⟩ : Job)], (j.BinlogInfo.FinishedTS : Int) < 5 →
       j ∈ [(⟨⟨1, 3⟩⟩ : Job)])) :=
  ⟨by decide,
   loadHistoryDDLJobs_window "pd" ⟨Except.ok (), Except.ok (), Except.ok [⟨⟨1, 3⟩⟩]⟩ 5
     [⟨⟨1, 3⟩⟩] [⟨⟨1, 3⟩⟩] (by decide) rfl rfl⟩

/-- C3 (counterexample): with `beginTS = 1` and a single history job whose
`FinishedTS` is `2^63`, the `int64` conversion wraps to a negative value, so
the job is returned even though its `FinishedTS` is not below `beginTS`. -/
theorem loadHistoryDDLJobs_overflow_cex :
    loadHistoryDDLJobs "pd" ⟨Except.ok (), Except.ok (), Except.ok [⟨⟨1, 2 ^ 63⟩⟩]⟩ 1 =
      Except.ok [⟨⟨1, 2 ^ 63⟩⟩] ∧
    ¬ (((⟨⟨1, 2 ^ 63⟩⟩ : Job).BinlogInfo.FinishedTS : Int) < 1) := by
  refine ⟨rfl, by decide⟩

/-- C4 (amended): every successful result of `loadHistoryDDLJobs` is sorted
ascending by `BinlogInfo.SchemaVersion` (the key the code actually sorts
by); it is additionally non-decreasing in `FinishedTS` whenever the history
source's jobs have `FinishedTS` monotone in `SchemaVersion`. -/
theorem loadHistoryDDLJobs_sorted (pdURLs : String) (oracle : TiStoreOracle)
    (beginTS : Int) (jobs : List Job)
    (hok : loadHistoryDDLJobs pdURLs oracle beginTS = Except.ok jobs) :
    jobs.Pairwise jobLE ∧
    (∀ allJobs, oracle.getAllHistoryDDLJobs = Except.ok allJobs →
      (∀ a ∈ allJobs, ∀ b ∈ allJobs, jobLE a b →
        a.BinlogInfo.FinishedTS ≤ b.BinlogInfo.FinishedTS) →
      jobs.Pairwise (fun a b => a.BinlogInfo.FinishedTS ≤ b.BinlogInfo.FinishedTS)) := by
  by_cases hpd : pdURLs.length = 0
  · have hjobs : jobs = [] := by
      simp only [loadHistoryDDLJobs, hpd] at hok
      rw [if_pos (by simp)] at hok
      exact (Except.ok.inj hok).symm
    subst hjobs
    exact ⟨List.Pairwise.nil, fun _ _ _ => List.Pairwise.nil⟩
  · obtain ⟨allJobs, hall, hjobs⟩ :=
      loadHistoryDDLJobs_ok_elim pdURLs oracle beginTS jobs hpd hok
    have hsorted : jobs.Pairwise jobLE := by
      rw [hjobs]
      exact ((List.sorted_insertionSort jobLE allJobs).sublist
        (List.filter_sublist _))
    refine ⟨hsorted, ?_⟩
    intro allJobs' hall' hmono
    rw [hall] at hall'
    obtain rfl : allJobs = allJobs' := by injection hall'
    have hmem : ∀ j ∈ jobs, j ∈ allJobs := by
      intro j hj
      rw [hjobs] at hj
      exact (List.mem_insertionSort jobLE).1 ((List.filter_sublist _).subset hj)
    exact hsorted.imp_of_mem (fun ha hb hr => hmono _ (hmem _ ha) _ (hmem _ hb) hr)

theorem loadHistoryDDLJobs_sorted_witness :
    ([(⟨⟨1, 3⟩⟩ : Job), ⟨⟨2, 4⟩⟩].Pairwise jobLE) ∧
    ([(⟨⟨1, 3⟩⟩ : Job), ⟨⟨2, 4⟩⟩].Pairwise
      (fun a b => a.BinlogInfo.FinishedTS ≤ b.BinlogInfo.FinishedTS)) := by
  have h := loadHistoryDDLJobs_sorted "pd"
    ⟨Except.ok (), Except.ok (), Except.ok [⟨⟨2, 4⟩⟩, ⟨⟨1, 3⟩⟩]⟩ 100
    [⟨⟨1, 3⟩⟩, ⟨⟨2, 4⟩⟩] rfl
  exact ⟨h.1, h.2 [⟨⟨2, 4⟩⟩, ⟨⟨1, 3⟩⟩] rfl (by decide)⟩

/-- C4 (counterexample): the returned list is sorted by schema version, not
by finished timestamp.  With jobs (version 1, finishedTs 10) and (version 2,
finishedTs 5) and `beginTS = 100`, `loadHistoryDDLJobs` returns them in
version order, whose `FinishedTS` sequence 10, 5 is decreasing, so
consecutive returned jobs are not non-decreasing in `finishedTs`. -/
theorem loadHistoryDDLJobs_fin_order_cex :
    loadHistoryDDLJobs "pd" ⟨Except.ok (), Except.ok (), Except.ok [⟨⟨1, 10⟩⟩, ⟨⟨2, 5⟩⟩]⟩ 100 =
      Except.ok [⟨⟨1, 10⟩⟩, ⟨⟨2, 5⟩⟩] ∧
    ¬ ([(⟨⟨1, 10⟩⟩ : Job), ⟨⟨2, 5⟩⟩].Pairwise
      (fun a b => a.BinlogInfo.FinishedTS ≤ b.BinlogInfo.FinishedTS)) := by
  refine ⟨rfl, by decide⟩

/-- The configuration fields the pitr package reads (`r.cfg`). -/
structure Config where
  Dir : String
  StartTSO : Int
  StopTSO : Int
  reserveTempDir : Bool
  schemaFile : String
  PDURLs : String

/-- Metadata of one candidate binlog file, as the file-selection step sees
it (spec §4.1/§6: path, min/max commit timestamp, byte size). -/
structure BFile where
  path : String
  minTs : Int
  maxTs : Int
  size : Nat
deriving Repr, DecidableEq

/-- Oracle for the collaborators `ExecuteHistoryDDLs` uses that are outside
the given file: `ioutil.ReadFile(r.cfg.schemaFile)`, the DDL executor
`ddlHandle.ExecuteDDL("", ddl)`, the bulk executor
`ddlHandle.ExecuteHistoryDDLs(jobs)`, and the TiKV store steps. -/
structure DDLEnv where
  readFile : Except Err String
  executeDDL : String → Except Err Unit
  executeHistoryDDLs : List Job → Except Err Unit
  tiStore : TiStoreOracle

/-- Splitting a character list at every newline, the single-character-
separator case of Go's `strings.Split(s, "\x5cn")`: the result always has
one more element than the number of newlines, so a trailing newline yields
a final empty line and an empty input yields one empty line. -/
def splitLines : List Char → List (List Char)
  | [] => [[]]
  | c :: rest =>
    if c = '\n' then [] :: splitLines rest
    else
      match splitLines rest with
      | [] => [[c]]
      | l :: ls => (c :: l) :: ls

/-- Go's `strings.Split(s, "\x5cn")` on strings. -/
def splitOnNewline (s : String) : List String :=
  (splitLines s.data).map (fun l => String.mk l)

/-- Embeds `LoadBaseSchema` (pitr.go:93-101): read the schema file and split
its content on newlines. -/
def LoadBaseSchema (env : DDLEnv) : Except Err (List String) :=
  match env.readFile with
  | Except.error e => Except.error e
  | Except.ok content => Except.ok (splitOnNewline content)

/-- The DDL loop of `ExecuteHistoryDDLs` (pitr.go:109-114): submit each ddl
string in order, stopping at the first failure.  The trace records every
submitted ddl. -/
def execDDLList (f : String → Except Err Unit) : List String → Res Unit
  | [] => (Except.ok (), [])
  | d :: rest =>
    match f d with
    | Except.error e => (Except.error e, [Ev.execDDLEv d])
    | Except.ok _ => ((execDDLList f rest).1, Ev.execDDLEv d :: (execDDLList f rest).2)

/-- Embeds `ExecuteHistoryDDLs` (pitr.go:103-127).  With a nonempty
`schemaFile` it loads the base schema and executes each line; otherwise it
loads the history DDL jobs below `beginTS` and hands them to the bulk
executor.  The trace records each submitted ddl line, resp. the call into
`loadHistoryDDLJobs` and the bulk execution. -/
def ExecuteHistoryDDLs (cfg : Config) (env : DDLEnv) (beginTS : Int) : Res Unit :=
  if cfg.schemaFile.length ≠ 0 then
    match LoadBaseSchema env with
    | Except.error e => (Except.error e, [])
    | Except.ok ddls => execDDLList env.executeDDL ddls
  else
    match loadHistoryDDLJobs cfg.PDURLs env.tiStore beginTS with
    | Except.error e =>
      (Except.error (Err.annotated "load history ddls" e), [Ev.loadHistoryJobsEv])
    | Except.ok historyDDLs =>
      match env.executeHistoryDDLs historyDDLs with
      | Except.error e =>
        (Except.error e, [Ev.loadHistoryJobsEv, Ev.executeHistoryJobsEv historyDDLs])
      | Except.ok _ =>
        (Except.ok (), [Ev.loadHistoryJobsEv, Ev.executeHistoryJobsEv historyDDLs])

/-- Modelled from the spec: the file-selection predicate of `filterFiles`,
which is not in the given file.  Per §4.1, a file is kept unless its entire
`[minTs, maxTs]` range lies outside the window (`stopTs == 0` meaning
unbounded above, §3 TimeWindow). -/
def keepFile (startTs stopTs : Int) (f : BFile) : Bool :=
  f.maxTs ≥ startTs && (stopTs == 0 || f.minTs ≤ stopTs)

/-- Modelled from the spec: `filterFiles`, which is not in the given file.
Per §4.1 it retains the files overlapping the window together with their
total size and "Fails with NoInputFiles if the retained set is empty". -/
def filterFiles (files : List BFile) (startTs stopTs : Int) :
    Except Err (List BFile × Nat) :=
  let retained := files.filter (keepFile startTs stopTs)
  if retained.isEmpty then Except.error Err.noInputFiles
  else Except.ok (retained, (retained.map (fun f => f.size)).sum)

/-- Modelled from the spec: `ddlHandle.ExecuteHistoryDDLs`, which is not in
the given file.  Per §6 the DDL executor applies each descriptor in order to
the mutable schema state, failing on the first `DDLApplyError`; an empty job
list applies nothing and succeeds. -/
def executeHistoryDDLsSpec (applyJob : Job → Except Err Unit) :
    List Job → Except Err Unit
  | [] => Except.ok ()
  | j :: rest =>
    match applyJob j with
    | Except.error e => Except.error e
    | Except.ok _ => executeHistoryDDLsSpec applyJob rest

/-- Oracle for the collaborators `Process` uses that are outside the given
file: `searchFiles`, `filterFiles`, `getFirstBinlogCommitTSAndFileSize`,
`NewMerge`, `merge.Map`, `merge.Reduce`. -/
structure ProcEnv where
  searchFiles : String → Except Err (List BFile)
  filterFiles : List BFile → Int → Int → Except Err (List BFile × Nat)
  getFirstBinlogCommitTSAndFileSize : BFile → Except Err (Int × Nat)
  newMerge : List BFile → Nat → Except Err Unit
  mapRes : Except Err Unit
  reduceRes : Except Err Unit

/-- Embeds pitr.go:53-59: `firstBinlogTs` is `cfg.StartTSO` unless that is
0, in which case it is the first commit ts of `files[0]` — a lookup that
panics in Go when the retained file list is empty (`indexOutOfRange`). -/
def computeFirstBinlogTs (cfg : Config) (penv : ProcEnv) (files : List BFile) :
    Except Err Int :=
  if cfg.StartTSO == 0 then
    match files with
    | [] => Except.error Err.indexOutOfRange
    | f :: _ =>
      match penv.getFirstBinlogCommitTSAndFileSize f with
      | Except.error e => Except.error (Err.annotated "get first binlog commit ts failed" e)
      | Except.ok (ts, _) => Except.ok ts
  else Except.ok cfg.StartTSO

/-- Embeds pitr.go:65-85, the part of `Process` after `NewMerge` succeeded:
history DDLs, Map, history DDLs again, Reduce, with the deferred
`merge.Close(r.cfg.reserveTempDir)` running on every exit below. -/
def ProcessAfterMerge (cfg : Config) (penv : ProcEnv) (denv : DDLEnv)
    (t : Int) : Res Unit :=
  match (ExecuteHistoryDDLs cfg denv t).1 with
  | Except.error e =>
    (Except.error (Err.annotated "load history ddls" e),
      (Ev.execHistoryEv t :: (ExecuteHistoryDDLs cfg denv t).2) ++
        [Ev.closeEv cfg.reserveTempDir])
  | Except.ok _ =>
    match penv.mapRes with
    | Except.error e =>
      (Except.error e,
        (Ev.execHistoryEv t :: (ExecuteHistoryDDLs cfg denv t).2) ++
          [Ev.mapEv, Ev.closeEv cfg.reserveTempDir])
    | Except.ok _ =>
      match (ExecuteHistoryDDLs cfg denv t).1 with
      | Except.error e =>
        (Except.error (Err.annotated "load history ddls" e),
          (Ev.execHistoryEv t :: (ExecuteHistoryDDLs cfg denv t).2) ++ [Ev.mapEv] ++
            (Ev.execHistoryEv t :: (ExecuteHistoryDDLs cfg denv t).2) ++
            [Ev.closeEv cfg.reserveTempDir])
      | Except.ok _ =>
        match penv.reduceRes with
        | Except.error e =>
          (Except.error e,
            (Ev.execHistoryEv t :: (ExecuteHistoryDDLs cfg denv t).2) ++ [Ev.mapEv] ++
              (Ev.execHistoryEv t :: (ExecuteHistoryDDLs cfg denv t).2) ++
              [Ev.reduceEv, Ev.closeEv cfg.reserveTempDir])
        | Except.ok _ =>
          (Except.ok (),
            (Ev.execHistoryEv t :: (ExecuteHistoryDDLs cfg denv t).2) ++ [Ev.mapEv] ++
              (Ev.execHistoryEv t :: (ExecuteHistoryDDLs cfg denv t).2) ++
              [Ev.reduceEv, Ev.closeEv cfg.reserveTempDir])

/-- Embeds `Process` (pitr.go:42-86): search files, select by window,
determine the first binlog ts, build the merge (whose deferred `Close` then
guards every later exit), then history DDLs / Map / history DDLs / Reduce. -/
def Process (cfg : Config) (penv : ProcEnv) (denv : DDLEnv) : Res Unit :=
  match penv.searchFiles cfg.Dir with
  | Except.error e => (Except.error (Err.annotated "searchFiles failed" e), [])
  | Except.ok files0 =>
    match penv.filterFiles files0 cfg.StartTSO cfg.StopTSO with
    | Except.error e => (Except.error (Err.annotated "filterFiles failed" e), [])
    | Except.ok (files, fileSize) =>
      match computeFirstBinlogTs cfg penv files with
      | Except.error e => (Except.error e, [])
      | Except.ok firstBinlogTs =>
        match penv.newMerge files fileSize with
        | Except.error e => (Except.error e, [])
        | Except.ok _ => ProcessAfterMerge cfg penv denv firstBinlogTs

theorem execDDLList_ok_iff (f : String → Except Err Unit) (l : List String) :
    (execDDLList f l).1 = Except.ok () ↔ ∀ d ∈ l, f d = Except.ok () := by
  induction l with
  | nil => simp [execDDLList]
  | cons d rest ih =>
    rcases hd : f d with e | u
    · simp only [execDDLList, hd]
      constructor
      · intro h
        exact Except.noConfusion h
      · intro h
        have hc := h d (List.mem_cons_self d rest)
        rw [hd] at hc
        exact Except.noConfusion hc
    · cases u
      simp [execDDLList, hd, ih]

theorem execDDLList_trace_all_ok (f : String → Except Err Unit) (l : List String)
    (h : ∀ d ∈ l, f d = Except.ok ()) :
    execDDLList f l = (Except.ok (), l.map Ev.execDDLEv) := by
  induction l with
  | nil => simp [execDDLList]
  | cons d rest ih =>
    have hd : f d = Except.ok () := h d (List.mem_cons_self d rest)
    have hrest := ih (fun d' hd' => h d' (List.mem_cons_of_mem d hd'))
    simp [execDDLList, hd, hrest]

theorem execDDLList_trace_events (f : String → Except Err Unit) (l : List String) :
    ∀ e ∈ (execDDLList f l).2, ∃ d, e = Ev.execDDLEv d := by
  induction l with
  | nil => simp [execDDLList]
  | cons d rest ih =>
    rcases hd : f d with er | u
    · simp [execDDLList, hd]
    · cases u
      intro e he
      simp only [execDDLList, hd] at he
      rcases List.mem_cons.1 he with rfl | he'
      · exact ⟨d, rfl⟩
      · exact ih e he'

/-- Every event recorded by `ExecuteHistoryDDLs` is a ddl submission, the
call into `loadHistoryDDLJobs`, or the bulk execution — never a phase event
of `Process` itself. -/
theorem ExecuteHistoryDDLs_trace_events (cfg : Config) (denv : DDLEnv) (t : Int) :
    ∀ e ∈ (ExecuteHistoryDDLs cfg denv t).2,
      (∃ d, e = Ev.execDDLEv d) ∨ e = Ev.loadHistoryJobsEv ∨
        ∃ js, e = Ev.executeHistoryJobsEv js := by
  unfold ExecuteHistoryDDLs
  by_cases hs : cfg.schemaFile.length ≠ 0
  · rw [if_pos hs]
    rcases hl : LoadBaseSchema denv with e | ddls
    · simp
    · intro e he
      exact Or.inl (execDDLList_trace_events denv.executeDDL ddls e he)
  · rw [if_neg hs]
    rcases hl : loadHistoryDDLJobs cfg.PDURLs denv.tiStore t with e | jobs
    · simp
    · rcases hx : denv.executeHistoryDDLs jobs with e | u
      · intro e he
        simp only [hx] at he
        rcases List.mem_cons.1 he with rfl | he'
        · exact Or.inr (Or.inl rfl)
        · rcases List.mem_cons.1 he' with rfl | he''
          · exact Or.inr (Or.inr ⟨jobs, rfl⟩)
          · exact absurd he'' (List.not_mem_nil e)
      · intro e he
        simp only [hx] at he
        rcases List.mem_cons.1 he with rfl | he'
        · exact Or.inr (Or.inl rfl)
        · rcases List.mem_cons.1 he' with rfl | he''
          · exact Or.inr (Or.inr ⟨jobs, rfl⟩)
          · exact absurd he'' (List.not_mem_nil e)

theorem mapEv_notin_exec_trace (cfg : Config) (denv : DDLEnv) (t : Int) :
    Ev.mapEv ∉ (ExecuteHistoryDDLs cfg denv t).2 := by
  intro h
  rcases ExecuteHistoryDDLs_trace_events cfg denv t _ h with ⟨d, hd⟩ | hd | ⟨js, hd⟩ <;>
    exact Ev.noConfusion hd

theorem reduceEv_notin_exec_trace (cfg : Config) (denv : DDLEnv) (t : Int) :
    Ev.reduceEv ∉ (ExecuteHistoryDDLs cfg denv t).2 := by
  intro h
  rcases ExecuteHistoryDDLs_trace_events cfg denv t _ h with ⟨d, hd⟩ | hd | ⟨js, hd⟩ <;>
    exact Ev.noConfusion hd

theorem closeEv_notin_exec_trace (cfg : Config) (denv : DDLEnv) (t : Int) (b : Bool) :
    Ev.closeEv b ∉ (ExecuteHistoryDDLs cfg denv t).2 := by
  intro h
  rcases ExecuteHistoryDDLs_trace_events cfg denv t _ h with ⟨d, hd⟩ | hd | ⟨js, hd⟩ <;>
    exact Ev.noConfusion hd

/-- Case analysis of `ProcessAfterMerge`: because `ExecuteHistoryDDLs` is a
pure function of its arguments, the second call returns what the first call
returned, so exactly four outcomes are reachable — history-DDL failure, Map
failure, Reduce failure, and success. -/
theorem ProcessAfterMerge_shape (cfg : Config) (penv : ProcEnv) (denv : DDLEnv) (t : Int) :
    (∃ e, (ExecuteHistoryDDLs cfg denv t).1 = Except.error e ∧
      ProcessAfterMerge cfg penv denv t =
        (Except.error (Err.annotated "load history ddls" e),
          (Ev.execHistoryEv t :: (ExecuteHistoryDDLs cfg denv t).2) ++
            [Ev.closeEv cfg.reserveTempDir])) ∨
    ((ExecuteHistoryDDLs cfg denv t).1 = Except.ok () ∧ ∃ e,
      penv.mapRes = Except.error e ∧
      ProcessAfterMerge cfg penv denv t =
        (Except.error e,
          (Ev.execHistoryEv t :: (ExecuteHistoryDDLs cfg denv t).2) ++
            [Ev.mapEv, Ev.closeEv cfg.reserveTempDir])) ∨
    ((ExecuteHistoryDDLs cfg denv t).1 = Except.ok () ∧
      penv.mapRes = Except.ok () ∧ ∃ e, penv.reduceRes = Except.error e ∧
      ProcessAfterMerge cfg penv denv t =
        (Except.error e,
          (Ev.execHistoryEv t :: (ExecuteHistoryDDLs cfg denv t).2) ++ [Ev.mapEv] ++
            (Ev.execHistoryEv t :: (ExecuteHistoryDDLs cfg denv t).2) ++
            [Ev.reduceEv, Ev.closeEv cfg.reserveTempDir])) ∨
    ((ExecuteHistoryDDLs cfg denv t).1 = Except.ok () ∧
      penv.mapRes = Except.ok () ∧ penv.reduceRes = Except.ok () ∧
      ProcessAfterMerge cfg penv denv t =
        (Except.ok (),
          (Ev.execHistoryEv t :: (ExecuteHistoryDDLs cfg denv t).2) ++ [Ev.mapEv] ++
            (Ev.execHistoryEv t :: (ExecuteHistoryDDLs cfg denv t).2) ++
            [Ev.reduceEv, Ev.closeEv cfg.reserveTempDir])) := by
  rcases hx : (ExecuteHistoryDDLs cfg denv t).1 with e | u
  · refine Or.inl ⟨e, rfl, ?_⟩
    simp [ProcessAfterMerge, hx]
  · cases u
    rcases hm : penv.mapRes with e | um
    · refine Or.inr (Or.inl ⟨rfl, e, rfl, ?_⟩)
      simp [ProcessAfterMerge, hx, hm]
    · cases um
      rcases hr : penv.reduceRes with e | ur
      · refine Or.inr (Or.inr (Or.inl ⟨rfl, rfl, e, rfl, ?_⟩))
        simp [ProcessAfterMerge, hx, hm, hr]
      · cases ur
        refine Or.inr (Or.inr (Or.inr ⟨rfl, rfl, rfl, ?_⟩))
        simp [ProcessAfterMerge, hx, hm, hr]

/-- Case analysis of `Process`: either one of the steps before `NewMerge`
fails — the run produces an error and an empty trace — or all of them
succeed and the run continues as `ProcessAfterMerge` with the computed
first binlog ts. -/
theorem Process_shape (cfg : Config) (penv : ProcEnv) (denv : DDLEnv) :
    ((Process cfg penv denv).2 = [] ∧ ∃ e, (Process cfg penv denv).1 = Except.error e) ∨
    (∃ files0 files fileSize t,
      penv.searchFiles cfg.Dir = Except.ok files0 ∧
      penv.filterFiles files0 cfg.StartTSO cfg.StopTSO = Except.ok (files, fileSize) ∧
      computeFirstBinlogTs cfg penv files = Except.ok t ∧
      penv.newMerge files fileSize = Except.ok () ∧
      Process cfg penv denv = ProcessAfterMerge cfg penv denv t) := by
  rcases h1 : penv.searchFiles cfg.Dir with e | files0
  · exact Or.inl (by simp [Process, h1])
  rcases h2 : penv.filterFiles files0 cfg.StartTSO cfg.StopTSO with e | ⟨files, fileSize⟩
  · exact Or.inl (by simp [Process, h1, h2])
  rcases h3 : computeFirstBinlogTs cfg penv files with e | t
  · exact Or.inl (by simp [Process, h1, h2, h3])
  rcases h4 : penv.newMerge files fileSize with e | u
  · exact Or.inl (by simp [Process, h1, h2, h3, h4])
  cases u
  refine Or.inr ⟨files0, files, fileSize, t, rfl, h2, h3, h4, ?_⟩
  simp [Process, h1, h2, h3, h4]

/-- A sample candidate file, configuration and collaborator behaviour on
which every step succeeds; used to witness the hypothesised theorems. -/
def sampleFile : BFile := ⟨"f1", 1, 10, 100⟩

def sampleCfg : Config := ⟨"dir", 1, 0, false, "", ""⟩

def samplePEnv : ProcEnv :=
  ⟨fun _ => Except.ok [sampleFile], fun fs _ _ => Except.ok (fs, 100),
   fun _ => Except.ok (5, 100), fun _ _ => Except.ok (),
   Except.ok (), Except.ok ()⟩

def sampleDEnv : DDLEnv :=
  ⟨Except.ok "", fun _ => Except.ok (), fun _ => Except.ok (),
   ⟨Except.ok (), Except.ok (), Except.ok []⟩⟩

/-- C2: in every execution of `Process`, if Reduce is invoked then the Map
step has already run to successful completion at an earlier point of the
trace; if Reduce is never invoked then `Process` returns an error; and if
Reduce is invoked then every earlier step (file search, file selection,
first-ts computation, merge construction, history DDLs, Map) returned
without error — hence any earlier failure both aborts with an error and
prevents Reduce. -/
theorem Process_map_before_reduce (cfg : Config) (penv : ProcEnv) (denv : DDLEnv) :
    (Ev.reduceEv ∈ (Process cfg penv denv).2 →
      penv.mapRes = Except.ok () ∧
      ∃ pre post, (Process cfg penv denv).2 = pre ++ Ev.mapEv :: post ∧
        Ev.reduceEv ∉ pre ∧ Ev.reduceEv ∈ post) ∧
    (Ev.reduceEv ∉ (Process cfg penv denv).2 →
      ∃ e, (Process cfg penv denv).1 = Except.error e) ∧
    (Ev.reduceEv ∈ (Process cfg penv denv).2 →
      ∃ files0 files fileSize t,
        penv.searchFiles cfg.Dir = Except.ok files0 ∧
        penv.filterFiles files0 cfg.StartTSO cfg.StopTSO = Except.ok (files, fileSize) ∧
        computeFirstBinlogTs cfg penv files = Except.ok t ∧
        penv.newMerge files fileSize = Except.ok () ∧
        (ExecuteHistoryDDLs cfg denv t).1 = Except.ok () ∧
        penv.mapRes = Except.ok ()) := by
  rcases Process_shape cfg penv denv with ⟨htr, e, hres⟩ |
    ⟨files0, files, fileSize, t, h1, h2, h3, h4, heq⟩
  · refine ⟨?_, ?_, ?_⟩
    · intro h
      rw [htr] at h
      exact absurd h (List.not_mem_nil _)
    · intro _
      exact ⟨e, hres⟩
    · intro h
      rw [htr] at h
      exact absurd h (List.not_mem_nil _)
  · have hnr := reduceEv_notin_exec_trace cfg denv t
    rcases ProcessAfterMerge_shape cfg penv denv t with
      ⟨e, hx, hshape⟩ | ⟨hx, e, hm, hshape⟩ | ⟨hx, hm, e, hr, hshape⟩ | ⟨hx, hm, hr, hshape⟩
    · have hno : Ev.reduceEv ∉ (Process cfg penv denv).2 := by
        rw [heq, hshape]
        intro h
        simp at h
        exact hnr h
      refine ⟨fun h => absurd h hno, fun _ =>
        ⟨Err.annotated "load history ddls" e, ?_⟩, fun h => absurd h hno⟩
      rw [heq, hshape]
    · have hno : Ev.reduceEv ∉ (Process cfg penv denv).2 := by
        rw [heq, hshape]
        intro h
        simp at h
        exact hnr h
      refine ⟨fun h => absurd h hno, fun _ => ⟨e, ?_⟩, fun h => absurd h hno⟩
      rw [heq, hshape]
    · have hyes : Ev.reduceEv ∈ (Process cfg penv denv).2 := by
        rw [heq, hshape]
        simp
      refine ⟨fun _ => ⟨hm, ?_⟩, fun h => absurd hyes h, fun _ =>
        ⟨files0, files, fileSize, t, h1, h2, h3, h4, hx, hm⟩⟩
      refine ⟨Ev.execHistoryEv t :: (ExecuteHistoryDDLs cfg denv t).2,
        (Ev.execHistoryEv t :: (ExecuteHistoryDDLs cfg denv t).2) ++
          [Ev.reduceEv, Ev.closeEv cfg.reserveTempDir], ?_, ?_, ?_⟩
      · rw [heq, hshape]
        simp
      · intro h
        simp at h
        exact hnr h
      · simp
    · have hyes : Ev.reduceEv ∈ (Process cfg penv denv).2 := by
        rw [heq, hshape]
        simp
      refine ⟨fun _ => ⟨hm, ?_⟩, fun h => absurd hyes h, fun _ =>
        ⟨files0, files, fileSize, t, h1, h2, h3, h4, hx, hm⟩⟩
      refine ⟨Ev.execHistoryEv t :: (ExecuteHistoryDDLs cfg denv t).2,
        (Ev.execHistoryEv t :: (ExecuteHistoryDDLs cfg denv t).2) ++
          [Ev.reduceEv, Ev.closeEv cfg.reserveTempDir], ?_, ?_, ?_⟩
      · rw [heq, hshape]
        simp
      · intro h
        simp at h
        exact hnr h
      · simp

theorem Process_map_before_reduce_witness :
    samplePEnv.mapRes = Except.ok () ∧
    ∃ pre post, (Process sampleCfg samplePEnv sampleDEnv).2 = pre ++ Ev.mapEv :: post ∧
      Ev.reduceEv ∉ pre ∧ Ev.reduceEv ∈ post :=
  (Process_map_before_reduce sampleCfg samplePEnv sampleDEnv).1 (by decide)

/-- In a trace that ends with one `closeEv` and contains no other
`closeEv`, close happens exactly once and only with that flag. -/
theorem count_close_of_append (A : List Ev) (rv : Bool)
    (hA : ∀ b, Ev.closeEv b ∉ A) :
    ((A ++ [Ev.closeEv rv]).count (Ev.closeEv rv) = 1) ∧
    (∀ b, Ev.closeEv b ∈ A ++ [Ev.closeEv rv] → b = rv) := by
  constructor
  · rw [List.count_append]
    have h0 : A.count (Ev.closeEv rv) = 0 := List.count_eq_zero.2 (hA rv)
    rw [h0]
    simp
  · intro b hb
    rcases List.mem_append.1 hb with h | h
    · exact absurd h (hA b)
    · have heqq := List.mem_singleton.1 h
      injection heqq

/-- C5: on every exit path of `Process` after `NewMerge` succeeded —
history-DDL failure, Map failure, Reduce failure, or success — the deferred
`merge.Close` runs exactly once, and always with the configured
`reserveTempDir` flag. -/
theorem Process_close_exactly_once (cfg : Config) (penv : ProcEnv) (denv : DDLEnv)
    (files0 files : List BFile) (fileSize : Nat) (t : Int)
    (h1 : penv.searchFiles cfg.Dir = Except.ok files0)
    (h2 : penv.filterFiles files0 cfg.StartTSO cfg.StopTSO = Except.ok (files, fileSize))
    (h3 : computeFirstBinlogTs cfg penv files = Except.ok t)
    (h4 : penv.newMerge files fileSize = Except.ok ()) :
    (Process cfg penv denv).2.count (Ev.closeEv cfg.reserveTempDir) = 1 ∧
    ∀ b, Ev.closeEv b ∈ (Process cfg penv denv).2 → b = cfg.reserveTempDir := by
  have heq : Process cfg penv denv = ProcessAfterMerge cfg penv denv t := by
    simp [Process, h1, h2, h3, h4]
  have hcount : ∀ b, (ExecuteHistoryDDLs cfg denv t).2.count (Ev.closeEv b) = 0 :=
    fun b => List.count_eq_zero.2 (closeEv_notin_exec_trace cfg denv t b)
  have hcmem : ∀ b, Ev.closeEv b ∉ (ExecuteHistoryDDLs cfg denv t).2 :=
    closeEv_notin_exec_trace cfg denv t
  rcases ProcessAfterMerge_shape cfg penv denv t with
    ⟨e, hx, hshape⟩ | ⟨hx, e, hm, hshape⟩ | ⟨hx, hm, e, hr, hshape⟩ | ⟨hx, hm, hr, hshape⟩
  · rw [heq, hshape]
    have hA : ∀ b, Ev.closeEv b ∉ Ev.execHistoryEv t :: (ExecuteHistoryDDLs cfg denv t).2 := by
      intro b hb
      simp at hb
      exact hcmem b hb
    have h := count_close_of_append (Ev.execHistoryEv t :: (ExecuteHistoryDDLs cfg denv t).2)
      cfg.reserveTempDir hA
    exact h
  · rw [heq, hshape]
    have hA : ∀ b, Ev.closeEv b ∉
        (Ev.execHistoryEv t :: (ExecuteHistoryDDLs cfg denv t).2) ++ [Ev.mapEv] := by
      intro b hb
      simp at hb
      exact hcmem b hb
    have h := count_close_of_append
      ((Ev.execHistoryEv t :: (ExecuteHistoryDDLs cfg denv t).2) ++ [Ev.mapEv])
      cfg.reserveTempDir hA
    have htr : (Ev.execHistoryEv t :: (ExecuteHistoryDDLs cfg denv t).2) ++
        [Ev.mapEv, Ev.closeEv cfg.reserveTempDir] =
        ((Ev.execHistoryEv t :: (ExecuteHistoryDDLs cfg denv t).2) ++ [Ev.mapEv]) ++
        [Ev.closeEv cfg.reserveTempDir] := by simp
    rw [htr]
    exact h
  · rw [heq, hshape]
    have hA : ∀ b, Ev.closeEv b ∉
        (Ev.execHistoryEv t :: (ExecuteHistoryDDLs cfg denv t).2) ++ [Ev.mapEv] ++
        (Ev.execHistoryEv t :: (ExecuteHistoryDDLs cfg denv t).2) ++ [Ev.reduceEv] := by
      intro b hb
      simp at hb
      exact hcmem b hb
    have h := count_close_of_append
      ((Ev.execHistoryEv t :: (ExecuteHistoryDDLs cfg denv t).2) ++ [Ev.mapEv] ++
        (Ev.execHistoryEv t :: (ExecuteHistoryDDLs cfg denv t).2) ++ [Ev.reduceEv])
      cfg.reserveTempDir hA
    have htr : (Ev.execHistoryEv t :: (ExecuteHistoryDDLs cfg denv t).2) ++ [Ev.mapEv] ++
        (Ev.execHistoryEv t :: (ExecuteHistoryDDLs cfg denv t).2) ++
        [Ev.reduceEv, Ev.closeEv cfg.reserveTempDir] =
        ((Ev.execHistoryEv t :: (ExecuteHistoryDDLs cfg denv t).2) ++ [Ev.mapEv] ++
          (Ev.execHistoryEv t :: (ExecuteHistoryDDLs cfg denv t).2) ++ [Ev.reduceEv]) ++
        [Ev.closeEv cfg.reserveTempDir] := by simp
    rw [htr]
    exact h
  · rw [heq, hshape]
    have hA : ∀ b, Ev.closeEv b ∉
        (Ev.execHistoryEv t :: (ExecuteHistoryDDLs cfg denv t).2) ++ [Ev.mapEv] ++
        (Ev.execHistoryEv t :: (ExecuteHistoryDDLs cfg denv t).2) ++ [Ev.reduceEv] := by
      intro b hb
      simp at hb
      exact hcmem b hb
    have h := count_close_of_append
      ((Ev.execHistoryEv t :: (ExecuteHistoryDDLs cfg denv t).2) ++ [Ev.mapEv] ++
        (Ev.execHistoryEv t :: (ExecuteHistoryDDLs cfg denv t).2) ++ [Ev.reduceEv])
      cfg.reserveTempDir hA
    have htr : (Ev.execHistoryEv t :: (ExecuteHistoryDDLs cfg denv t).2) ++ [Ev.mapEv] ++
        (Ev.execHistoryEv t :: (ExecuteHistoryDDLs cfg denv t).2) ++
        [Ev.reduceEv, Ev.closeEv cfg.reserveTempDir] =
        ((Ev.execHistoryEv t :: (ExecuteHistoryDDLs cfg denv t).2) ++ [Ev.mapEv] ++
          (Ev.execHistoryEv t :: (ExecuteHistoryDDLs cfg denv t).2) ++ [Ev.reduceEv]) ++
        [Ev.closeEv cfg.reserveTempDir] := by simp
    rw [htr]
    exact h

theorem Process_close_exactly_once_witness :
    (Process sampleCfg samplePEnv sampleDEnv).2.count (Ev.closeEv sampleCfg.reserveTempDir) = 1 ∧
    ∀ b, Ev.closeEv b ∈ (Process sampleCfg samplePEnv sampleDEnv).2 →
      b = sampleCfg.reserveTempDir :=
  Process_close_exactly_once sampleCfg samplePEnv sampleDEnv
    [sampleFile] [sampleFile] 100 1 rfl rfl rfl rfl

/-- C7: for every window, whenever file selection retains nothing,
`Process` stops with the `NoInputFiles` error (annotated as a filterFiles
failure) and an empty trace — no other failure mode occurs; in particular
with `StartTSO = 0` the `files[0]` lookup (a Go panic on an empty slice)
is never reached.  Uses the spec-modelled `filterFiles`, which is not in
the given file. -/
theorem Process_noInputFiles (cfg : Config) (penv : ProcEnv) (denv : DDLEnv)
    (files0 : List BFile)
    (hs : penv.searchFiles cfg.Dir = Except.ok files0)
    (hf : penv.filterFiles = fun fs s ts => filterFiles fs s ts)
    (hempty : files0.filter (keepFile cfg.StartTSO cfg.StopTSO) = []) :
    Process cfg penv denv =
      (Except.error (Err.annotated "filterFiles failed" Err.noInputFiles), []) := by
  simp [Process, hs, hf, filterFiles, hempty]

theorem Process_noInputFiles_witness :
    Process ⟨"dir", 0, 50, false, "", ""⟩
      ⟨fun _ => Except.ok [⟨"f", 60, 70, 9⟩], fun fs s ts => filterFiles fs s ts,
       fun _ => Except.ok (5, 9), fun _ _ => Except.ok (), Except.ok (), Except.ok ()⟩
      sampleDEnv =
      (Except.error (Err.annotated "filterFiles failed" Err.noInputFiles), []) ∧
    Process ⟨"dir", 100, 0, false, "", ""⟩
      ⟨fun _ => Except.ok [⟨"f", 1, 90, 9⟩], fun fs s ts => filterFiles fs s ts,
       fun _ => Except.ok (5, 9), fun _ _ => Except.ok (), Except.ok (), Except.ok ()⟩
      sampleDEnv =
      (Except.error (Err.annotated "filterFiles failed" Err.noInputFiles), []) :=
  ⟨Process_noInputFiles ⟨"dir", 0, 50, false, "", ""⟩
     ⟨fun _ => Except.ok [⟨"f", 60, 70, 9⟩], fun fs s ts => filterFiles fs s ts,
      fun _ => Except.ok (5, 9), fun _ _ => Except.ok (), Except.ok (), Except.ok ()⟩
     sampleDEnv [⟨"f", 60, 70, 9⟩] rfl rfl rfl,
   Process_noInputFiles ⟨"dir", 100, 0, false, "", ""⟩
     ⟨fun _ => Except.ok [⟨"f", 1, 90, 9⟩], fun fs s ts => filterFiles fs s ts,
      fun _ => Except.ok (5, 9), fun _ _ => Except.ok (), Except.ok (), Except.ok ()⟩
     sampleDEnv [⟨"f", 1, 90, 9⟩] rfl rfl rfl⟩

/-- C8: in every successful run of `Process`, the history-DDL step runs
exactly twice, both times with the same begin timestamp `t`
(the computed `firstBinlogTs`) and hence with the same DDL work, once
before `mapEv` and once between `mapEv` and `reduceEv`; the whole trace is
exactly these five phases. -/
theorem Process_execHistoryDDLs_twice (cfg : Config) (penv : ProcEnv) (denv : DDLEnv)
    (hok : (Process cfg penv denv).1 = Except.ok ()) :
    ∃ t, (ExecuteHistoryDDLs cfg denv t).1 = Except.ok () ∧
      (Process cfg penv denv).2 =
        (Ev.execHistoryEv t :: (ExecuteHistoryDDLs cfg denv t).2) ++ [Ev.mapEv] ++
          (Ev.execHistoryEv t :: (ExecuteHistoryDDLs cfg denv t).2) ++
          [Ev.reduceEv, Ev.closeEv cfg.reserveTempDir] := by
  rcases Process_shape cfg penv denv with ⟨htr, e, hres⟩ |
    ⟨files0, files, fileSize, t, h1, h2, h3, h4, heq⟩
  · rw [hres] at hok
    exact Except.noConfusion hok
  · rcases ProcessAfterMerge_shape cfg penv denv t with
      ⟨e, hx, hshape⟩ | ⟨hx, e, hm, hshape⟩ | ⟨hx, hm, e, hr, hshape⟩ | ⟨hx, hm, hr, hshape⟩
    · rw [heq, hshape] at hok
      exact Except.noConfusion hok
    · rw [heq, hshape] at hok
      exact Except.noConfusion hok
    · rw [heq, hshape] at hok
      exact Except.noConfusion hok
    · refine ⟨t, hx, ?_⟩
      rw [heq, hshape]

theorem Process_execHistoryDDLs_twice_witness :
    ∃ t, (ExecuteHistoryDDLs sampleCfg sampleDEnv t).1 = Except.ok () ∧
      (Process sampleCfg samplePEnv sampleDEnv).2 =
        (Ev.execHistoryEv t :: (ExecuteHistoryDDLs sampleCfg sampleDEnv t).2) ++ [Ev.mapEv] ++
          (Ev.execHistoryEv t :: (ExecuteHistoryDDLs sampleCfg sampleDEnv t).2) ++
          [Ev.reduceEv, Ev.closeEv sampleCfg.reserveTempDir] :=
  Process_execHistoryDDLs_twice sampleCfg samplePEnv sampleDEnv rfl

/-- C6: `ExecuteHistoryDDLs` uses exactly one schema source.  With a
nonempty `schemaFile` it never calls into `loadHistoryDDLJobs`, succeeds
iff reading the file and executing every resulting line succeed, and on
success has submitted exactly the split lines in order.  With an empty
`schemaFile` it succeeds iff loading the history jobs and the bulk
execution succeed. -/
theorem ExecuteHistoryDDLs_source_selection (cfg : Config) (denv : DDLEnv) (t : Int) :
    (cfg.schemaFile.length ≠ 0 →
      Ev.loadHistoryJobsEv ∉ (ExecuteHistoryDDLs cfg denv t).2 ∧
      ((ExecuteHistoryDDLs cfg denv t).1 = Except.ok () ↔
        ∃ content, denv.readFile = Except.ok content ∧
          ∀ d ∈ splitOnNewline content, denv.executeDDL d = Except.ok ()) ∧
      (∀ content, denv.readFile = Except.ok content →
        (ExecuteHistoryDDLs cfg denv t).1 = Except.ok () →
        (ExecuteHistoryDDLs cfg denv t).2 = (splitOnNewline content).map Ev.execDDLEv)) ∧
    (cfg.schemaFile.length = 0 →
      ((ExecuteHistoryDDLs cfg denv t).1 = Except.ok () ↔
        ∃ jobs, loadHistoryDDLJobs cfg.PDURLs denv.tiStore t = Except.ok jobs ∧
          denv.executeHistoryDDLs jobs = Except.ok ())) := by
  constructor
  · intro hs
    have hsel : ExecuteHistoryDDLs cfg denv t =
        match LoadBaseSchema denv with
        | Except.error e => (Except.error e, [])
        | Except.ok ddls => execDDLList denv.executeDDL ddls := by
      unfold ExecuteHistoryDDLs
      rw [if_pos hs]
    rcases hread : denv.readFile with e | content
    · have hload : LoadBaseSchema denv = Except.error e := by
        simp [LoadBaseSchema, hread]
      rw [hsel, hload]
      refine ⟨by simp, ?_, ?_⟩
      · constructor
        · intro h
          exact Except.noConfusion h
        · rintro ⟨content, hc, _⟩
          exact Except.noConfusion hc
      · intro content hc
        exact absurd hc (fun hcc => Except.noConfusion hcc)
    · have hload : LoadBaseSchema denv = Except.ok (splitOnNewline content) := by
        simp [LoadBaseSchema, hread]
      rw [hsel, hload]
      refine ⟨?_, ?_, ?_⟩
      · intro h
        rcases execDDLList_trace_events denv.executeDDL (splitOnNewline content) _ h with
          ⟨d, hd⟩
        exact Ev.noConfusion hd
      · rw [execDDLList_ok_iff]
        constructor
        · intro h
          exact ⟨content, rfl, h⟩
        · rintro ⟨content', hc, h⟩
          have hcc : content = content' := Except.ok.inj hc
          rw [hcc]
          exact h
      · intro content' hc hok
        have hcc : content' = content := (Except.ok.inj hc).symm
        subst hcc
        rw [execDDLList_ok_iff] at hok
        exact congrArg Prod.snd
          (execDDLList_trace_all_ok denv.executeDDL (splitOnNewline content') hok)
  · intro hs
    have hsel : ExecuteHistoryDDLs cfg denv t =
        match loadHistoryDDLJobs cfg.PDURLs denv.tiStore t with
        | Except.error e =>
          (Except.error (Err.annotated "load history ddls" e), [Ev.loadHistoryJobsEv])
        | Except.ok historyDDLs =>
          match denv.executeHistoryDDLs historyDDLs with
          | Except.error e =>
            (Except.error e, [Ev.loadHistoryJobsEv, Ev.executeHistoryJobsEv historyDDLs])
          | Except.ok _ =>
            (Except.ok (), [Ev.loadHistoryJobsEv, Ev.executeHistoryJobsEv historyDDLs]) := by
      unfold ExecuteHistoryDDLs
      rw [if_neg (by simp [hs])]
    rcases hl : loadHistoryDDLJobs cfg.PDURLs denv.tiStore t with e | jobs
    · rw [hsel, hl]
      constructor
      · intro h
        exact Except.noConfusion h
      · rintro ⟨jobs, hj, _⟩
        exact Except.noConfusion hj
    · rcases hx : denv.executeHistoryDDLs jobs with e | u
      · rw [hsel, hl]
        simp only [hx]
        constructor
        · intro h
          exact Except.noConfusion h
        · rintro ⟨jobs', hj, hexec⟩
          have : jobs = jobs' := Except.ok.inj hj
          rw [← this] at hexec
          rw [hx] at hexec
          exact Except.noConfusion hexec
      · cases u
        rw [hsel, hl]
        simp only [hx]
        constructor
        · intro _
          exact ⟨jobs, rfl, hx⟩
        · intro _
          trivial

/-- A configuration with a base schema file, and a matching DDL
environment whose schema file content is two lines. -/
def schemaCfg : Config := ⟨"dir", 1, 0, false, "s.sql", ""⟩

def schemaDEnv : DDLEnv :=
  ⟨Except.ok "a\nb", fun _ => Except.ok (), fun _ => Except.ok (),
   ⟨Except.ok (), Except.ok (), Except.ok []⟩⟩

theorem ExecuteHistoryDDLs_source_selection_witness :
    (Ev.loadHistoryJobsEv ∉ (ExecuteHistoryDDLs schemaCfg schemaDEnv 1).2 ∧
     ((ExecuteHistoryDDLs schemaCfg schemaDEnv 1).1 = Except.ok () ↔
       ∃ content, schemaDEnv.readFile = Except.ok content ∧
         ∀ d ∈ splitOnNewline content, schemaDEnv.executeDDL d = Except.ok ()) ∧
     (∀ content, schemaDEnv.readFile = Except.ok content →
       (ExecuteHistoryDDLs schemaCfg schemaDEnv 1).1 = Except.ok () →
       (ExecuteHistoryDDLs schemaCfg schemaDEnv 1).2 =
         (splitOnNewline content).map Ev.execDDLEv)) ∧
    ((ExecuteHistoryDDLs sampleCfg sampleDEnv 1).1 = Except.ok () ↔
      ∃ jobs, loadHistoryDDLJobs sampleCfg.PDURLs sampleDEnv.tiStore 1 = Except.ok jobs ∧
        sampleDEnv.executeHistoryDDLs jobs = Except.ok ()) :=
  ⟨(ExecuteHistoryDDLs_source_selection schemaCfg schemaDEnv 1).1 (by decide),
   (ExecuteHistoryDDLs_source_selection sampleCfg sampleDEnv 1).2 rfl⟩

theorem splitLines_ne_nil : ∀ l : List Char, splitLines l ≠ [] := by
  intro l
  cases l with
  | nil => simp [splitLines]
  | cons c rest =>
    by_cases hc : c = '\n'
    · simp [splitLines, hc]
    · simp only [splitLines, if_neg hc]
      rcases hrec : splitLines rest with _ | ⟨l0, ls⟩ <;> simp

/-- Splitting around one newline concatenates the splits of the two sides
(Go Split semantics). -/
theorem splitLines_append_cons (a b : List Char) :
    splitLines (a ++ '\n' :: b) = splitLines a ++ splitLines b := by
  induction a with
  | nil => simp [splitLines]
  | cons c rest ih =>
    by_cases hc : c = '\n'
    · subst hc
      simp [splitLines, ih, List.append_eq]
    · rcases hrec : splitLines rest with _ | ⟨l0, ls⟩
      · exact absurd hrec (splitLines_ne_nil rest)
      · simp [splitLines, hc, ih, hrec, List.append_eq]

/-- A trailing newline produces a final empty line (Go Split semantics). -/
theorem splitLines_append_newline (l : List Char) :
    splitLines (l ++ ['\n']) = splitLines l ++ [[]] :=
  splitLines_append_cons l []

/-- The split of a schema file content whose text ends in a newline, holds
a blank line between two newlines, or starts with a newline, contains the
empty string. -/
theorem mem_empty_splitOnNewline (content : String)
    (hnl : (∃ s, content = s ++ "\n") ∨
      (∃ a b, content = a ++ "\n" ++ "\n" ++ b) ∨
      (∃ b, content = "\n" ++ b)) :
    "" ∈ splitOnNewline content := by
  have hmk : ("" : String) = String.mk [] := rfl
  rcases hnl with ⟨s, rfl⟩ | ⟨a, b, rfl⟩ | ⟨b, rfl⟩
  · have hdata : (s ++ "\n").data = s.data ++ '\n' :: [] := rfl
    unfold splitOnNewline
    rw [hdata, splitLines_append_cons]
    rw [hmk]
    exact List.mem_map_of_mem _ (List.mem_append_right _ (by simp [splitLines]))
  · have hdata : (a ++ "\n" ++ "\n" ++ b).data =
        a.data ++ '\n' :: ('\n' :: b.data) := by
      simp
    unfold splitOnNewline
    rw [hdata, splitLines_append_cons]
    rw [hmk]
    refine List.mem_map_of_mem _ (List.mem_append_right _ ?_)
    simp [splitLines]
  · have hdata : ("\n" ++ b).data = '\n' :: b.data := rfl
    unfold splitOnNewline
    rw [hdata]
    rw [hmk]
    exact List.mem_map_of_mem _ (by simp [splitLines])

/-- C9: `LoadBaseSchema` splits the file content on newline characters,
keeping empty lines; whenever the content ends in a newline or contains a
blank line (between two newlines or at the start), the split contains an
empty string, and `ExecuteHistoryDDLs` passes every resulting line — the
empty string included, rather than skipping it — to the DDL executor. -/
theorem LoadBaseSchema_keeps_empty_lines (cfg : Config) (denv : DDLEnv) (t : Int)
    (content : String)
    (hschema : cfg.schemaFile.length ≠ 0)
    (hread : denv.readFile = Except.ok content)
    (hnl : (∃ s, content = s ++ "\n") ∨
      (∃ a b, content = a ++ "\n" ++ "\n" ++ b) ∨
      (∃ b, content = "\n" ++ b))
    (hex : ∀ d, denv.executeDDL d = Except.ok ()) :
    LoadBaseSchema denv = Except.ok (splitOnNewline content) ∧
    "" ∈ splitOnNewline content ∧
    (ExecuteHistoryDDLs cfg denv t).2 = (splitOnNewline content).map Ev.execDDLEv ∧
    Ev.execDDLEv "" ∈ (ExecuteHistoryDDLs cfg denv t).2 := by
  have hmem : "" ∈ splitOnNewline content := mem_empty_splitOnNewline content hnl
  have hsel : ExecuteHistoryDDLs cfg denv t =
      match LoadBaseSchema denv with
      | Except.error e => (Except.error e, [])
      | Except.ok ddls => execDDLList denv.executeDDL ddls := by
    unfold ExecuteHistoryDDLs
    rw [if_pos hschema]
  have hload : LoadBaseSchema denv = Except.ok (splitOnNewline content) := by
    simp [LoadBaseSchema, hread]
  have htr := execDDLList_trace_all_ok denv.executeDDL (splitOnNewline content)
    (fun d _ => hex d)
  have hpr : (ExecuteHistoryDDLs cfg denv t).2 =
      (splitOnNewline content).map Ev.execDDLEv := by
    rw [hsel, hload]
    show (execDDLList denv.executeDDL (splitOnNewline content)).2 =
      (splitOnNewline content).map Ev.execDDLEv
    exact congrArg Prod.snd htr
  refine ⟨hload, hmem, hpr, ?_⟩
  rw [hpr]
  exact List.mem_map_of_mem Ev.execDDLEv hmem

def schemaDEnv2 : DDLEnv :=
  ⟨Except.ok "a\n", fun _ => Except.ok (), fun _ => Except.ok (),
   ⟨Except.ok (), Except.ok (), Except.ok []⟩⟩

def schemaDEnv3 : DDLEnv :=
  ⟨Except.ok "a\n\nb", fun _ => Except.ok (), fun _ => Except.ok (),
   ⟨Except.ok (), Except.ok (), Except.ok []⟩⟩

theorem LoadBaseSchema_keeps_empty_lines_witness :
    (LoadBaseSchema schemaDEnv2 = Except.ok (splitOnNewline "a\n") ∧
     "" ∈ splitOnNewline "a\n" ∧
     (ExecuteHistoryDDLs schemaCfg schemaDEnv2 1).2 =
       (splitOnNewline "a\n").map Ev.execDDLEv ∧
     Ev.execDDLEv "" ∈ (ExecuteHistoryDDLs schemaCfg schemaDEnv2 1).2) ∧
    (LoadBaseSchema schemaDEnv3 = Except.ok (splitOnNewline "a\n\nb") ∧
     "" ∈ splitOnNewline "a\n\nb" ∧
     (ExecuteHistoryDDLs schemaCfg schemaDEnv3 1).2 =
       (splitOnNewline "a\n\nb").map Ev.execDDLEv ∧
     Ev.execDDLEv "" ∈ (ExecuteHistoryDDLs schemaCfg schemaDEnv3 1).2) :=
  ⟨LoadBaseSchema_keeps_empty_lines schemaCfg schemaDEnv2 1 "a\n"
     (by decide) rfl (Or.inl ⟨"a", rfl⟩) (fun _ => rfl),
   LoadBaseSchema_keeps_empty_lines schemaCfg schemaDEnv3 1 "a\n\nb"
     (by decide) rfl (Or.inr (Or.inl ⟨"a", "b", by decide⟩)) (fun _ => rfl)⟩

/-- C10: with no schema file and no PD URLs configured,
`loadHistoryDDLJobs` returns an empty list with no error for every begin
timestamp, and `ExecuteHistoryDDLs` succeeds without submitting a single
DDL (its trace holds no `execDDLEv` and the bulk executor receives the
empty job list).  Uses the spec-modelled bulk executor, which is not in
the given file. -/
theorem ExecuteHistoryDDLs_no_sources (cfg : Config) (denv : DDLEnv) (t : Int)
    (applyJob : Job → Except Err Unit)
    (hschema : cfg.schemaFile = "")
    (hpd : cfg.PDURLs = "")
    (hbulk : denv.executeHistoryDDLs = executeHistoryDDLsSpec applyJob) :
    loadHistoryDDLJobs cfg.PDURLs denv.tiStore t = Except.ok [] ∧
    ExecuteHistoryDDLs cfg denv t =
      (Except.ok (), [Ev.loadHistoryJobsEv, Ev.executeHistoryJobsEv []]) := by
  have h1 : loadHistoryDDLJobs cfg.PDURLs denv.tiStore t = Except.ok [] := by
    simp [loadHistoryDDLJobs, hpd]
  refine ⟨h1, ?_⟩
  have hsel : ExecuteHistoryDDLs cfg denv t =
      match loadHistoryDDLJobs cfg.PDURLs denv.tiStore t with
      | Except.error e =>
        (Except.error (Err.annotated "load history ddls" e), [Ev.loadHistoryJobsEv])
      | Except.ok historyDDLs =>
        match denv.executeHistoryDDLs historyDDLs with
        | Except.error e =>
          (Except.error e, [Ev.loadHistoryJobsEv, Ev.executeHistoryJobsEv historyDDLs])
        | Except.ok _ =>
          (Except.ok (), [Ev.loadHistoryJobsEv, Ev.executeHistoryJobsEv historyDDLs]) := by
    unfold ExecuteHistoryDDLs
    rw [if_neg (by simp [hschema])]
  rw [hsel, h1, hbulk]
  rfl

def specDEnv : DDLEnv :=
  ⟨Except.ok "", fun _ => Except.ok (),
   executeHistoryDDLsSpec (fun _ => Except.ok ()),
   ⟨Except.ok (), Except.ok (), Except.ok []⟩⟩

theorem ExecuteHistoryDDLs_no_sources_witness :
    loadHistoryDDLJobs sampleCfg.PDURLs specDEnv.tiStore 7 = Except.ok [] ∧
    ExecuteHistoryDDLs sampleCfg specDEnv 7 =
      (Except.ok (), [Ev.loadHistoryJobsEv, Ev.executeHistoryJobsEv []]) :=
  ExecuteHistoryDDLs_no_sources sampleCfg specDEnv 7 (fun _ => Except.ok ())
    rfl rfl rfl

end PITR
